import Mathlib

/-!
Shallow embedding of the `cmd-buffer` repository (`src/lib.rs`): a bounded
FIFO buffer `CommandBuffer<T>` backed by a `VecDeque<T>`, with operations
`new`, `write_command`, `read_command`, `clear`, `len`, `has`, `is_empty`
and `retain`.

The `VecDeque` is modelled as a Lean `List` whose head is the deque's front
(index 0, the oldest element) together with its allocated `capacity`.
`VecDeque::with_capacity(c)` yields a deque of capacity `c`, and since
`write_command` only pushes after popping when the deque is full, the
capacity never changes for a buffer constructed with positive capacity.
-/

namespace CmdBuffer

/-- `CommandBuffer<T>`: the field `events` models the `VecDeque<T>` contents
(front first, i.e. oldest first) and `capacity` models
`self.events.capacity()`. -/
structure CommandBuffer (T : Type) where
  capacity : Nat
  events : List T
  deriving Repr, DecidableEq

variable {T : Type}

/-- `CommandBuffer::new(capacity)`: `VecDeque::with_capacity(capacity)`,
an empty deque of the given capacity. -/
def new (capacity : Nat) : CommandBuffer T :=
  { capacity := capacity, events := [] }

/-- `write_command(&mut self, event) -> bool`: if `len() >= capacity()`
then `pop_front` (drop the oldest element; a no-op on an empty deque) and
record `capped = true`, else `capped = false`; then `push_back(event)` and
return `capped`.  Modelled as state passing: result is the new buffer and
the returned flag. -/
def write_command (buf : CommandBuffer T) (event : T) : CommandBuffer T × Bool :=
  if buf.events.length ≥ buf.capacity then
    ({ buf with events := buf.events.tail ++ [event] }, true)
  else
    ({ buf with events := buf.events ++ [event] }, false)

/-- `read_command(&mut self) -> Option<T>`: `self.events.pop_front()`.
Returns the popped front element (`none` on an empty deque) and the new
buffer state. -/
def read_command (buf : CommandBuffer T) : Option T × CommandBuffer T :=
  match buf.events with
  | [] => (none, buf)
  | x :: xs => (some x, { buf with events := xs })

/-- `clear(&mut self)`: `self.events.clear()` removes all elements,
keeping the allocated capacity. -/
def clear (buf : CommandBuffer T) : CommandBuffer T :=
  { buf with events := [] }

/-- `len(&self) -> usize`: `self.events.len()`. -/
def len (buf : CommandBuffer T) : Nat :=
  buf.events.length

/-- `has(&self, predicate) -> bool`: `self.events.iter().any(predicate)`.
A `&self` method: it cannot mutate the buffer. -/
def has (buf : CommandBuffer T) (predicate : T → Bool) : Bool :=
  buf.events.any predicate

/-- `is_empty(&self) -> bool`: `self.events.is_empty()`. -/
def is_empty (buf : CommandBuffer T) : Bool :=
  buf.events.isEmpty

/-- The loop body of `retain`: starting from index `i`, while
`i < self.events.len()`, if the predicate holds at index `i` remove that
element (`self.events.remove(i)`, which shifts later elements left) and
push it onto `popped`, otherwise advance `i`.  Returns the remaining
events together with the popped elements in visit order. -/
def retainAux (predicate : T → Bool) (events : List T) (i : Nat) :
    List T × List T :=
  if h : i < events.length then
    if predicate (events.get ⟨i, h⟩) then
      let r := retainAux predicate (events.eraseIdx i) i
      (r.1, events.get ⟨i, h⟩ :: r.2)
    else
      retainAux predicate events (i + 1)
  else
    (events, [])
termination_by events.length - i
decreasing_by
  · simp only [List.length_eraseIdx, h, if_true]
    omega
  · omega

/-- `retain(&mut self, predicate) -> Vec<T>`: runs the scan loop from
index 0 with an empty `popped` vector; returns the new buffer and the
vector of popped elements. -/
def retain (buf : CommandBuffer T) (predicate : T → Bool) :
    CommandBuffer T × List T :=
  let r := retainAux predicate buf.events 0
  ({ buf with events := r.1 }, r.2)

/-- A call a client can make on a buffer (ignoring returned values);
used to quantify over arbitrary interleavings of operations. -/
inductive Op (T : Type) where
  | write (x : T)
  | read
  | clearOp
  | hasOp (p : T → Bool)
  | retainOp (p : T → Bool)

/-- The state transition of one call.  `has` takes `&self` and leaves the
buffer untouched; the others are the `&mut self` methods above. -/
def step (buf : CommandBuffer T) : Op T → CommandBuffer T
  | .write x => (write_command buf x).1
  | .read => (read_command buf).2
  | .clearOp => clear buf
  | .hasOp _ => buf
  | .retainOp p => (retain buf p).1

/-- Running a sequence of calls from a given buffer state. -/
def run (buf : CommandBuffer T) : List (Op T) → CommandBuffer T
  | [] => buf
  | op :: ops => run (step buf op) ops

/-- Writing a list of items in order, discarding the returned flags. -/
def writeAll (buf : CommandBuffer T) : List T → CommandBuffer T
  | [] => buf
  | x :: xs => writeAll (write_command buf x).1 xs

/-- Writing a list of items in order, collecting the returned flags. -/
def writeFlags (buf : CommandBuffer T) : List T → List Bool
  | [] => []
  | x :: xs => (write_command buf x).2 :: writeFlags (write_command buf x).1 xs

/-- Repeatedly calling `read_command`, collecting results until it
returns `none` (the empty signal). -/
def drain (buf : CommandBuffer T) : List T :=
  match h : read_command buf with
  | (none, _) => []
  | (some x, buf') => x :: drain buf'
termination_by buf.events.length
decreasing_by
  cases he : buf.events with
  | nil => simp [read_command, he] at h
  | cons y ys =>
    simp only [read_command, he] at h
    cases h
    simp [he]

/-- The last `n` elements of a list (the suffix a full buffer retains). -/
def takeLast (n : Nat) (l : List T) : List T :=
  l.drop (l.length - n)

/-! ### Basic lemmas about the operations -/

theorem write_command_full (buf : CommandBuffer T) (x : T)
    (h : buf.events.length ≥ buf.capacity) :
    write_command buf x = ({ buf with events := buf.events.tail ++ [x] }, true) := by
  rw [write_command, if_pos h]

theorem write_command_spare (buf : CommandBuffer T) (x : T)
    (h : ¬ buf.events.length ≥ buf.capacity) :
    write_command buf x = ({ buf with events := buf.events ++ [x] }, false) := by
  rw [write_command, if_neg h]

theorem write_command_capacity (buf : CommandBuffer T) (x : T) :
    (write_command buf x).1.capacity = buf.capacity := by
  rw [write_command]
  split <;> rfl

theorem writeAll_capacity (xs : List T) :
    ∀ buf : CommandBuffer T, (writeAll buf xs).capacity = buf.capacity := by
  induction xs with
  | nil => intro buf; rfl
  | cons x xs ih =>
    intro buf
    rw [writeAll, ih, write_command_capacity]

theorem drain_eq_events (buf : CommandBuffer T) : drain buf = buf.events := by
  cases buf with
  | mk c e =>
    induction e with
    | nil => rw [drain]; simp [read_command]
    | cons x xs ih =>
      rw [drain]
      simp only [read_command]
      exact congrArg (x :: ·) ih

theorem takeLast_of_length_le (n : Nat) (l : List T) (h : l.length ≤ n) :
    takeLast n l = l := by
  simp [takeLast, Nat.sub_eq_zero_of_le h]

theorem takeLast_cons (n : Nat) (a : T) (l : List T) (h : n ≤ l.length) :
    takeLast n (a :: l) = takeLast n l := by
  unfold takeLast
  have hlen : (a :: l).length - n = (l.length - n) + 1 := by
    simp only [List.length_cons]
    omega
  rw [hlen, List.drop_succ_cons]

theorem retainAux_eq_aux (p : T → Bool) :
    ∀ (n : Nat) (events : List T) (i : Nat), events.length - i ≤ n →
      retainAux p events i =
        (events.take i ++ (events.drop i).filter (fun x => !(p x)),
         (events.drop i).filter p) := by
  intro n
  induction n with
  | zero =>
    intro events i hn
    rw [retainAux]
    have hle : events.length ≤ i := by omega
    rw [dif_neg (by omega)]
    simp [List.take_of_length_le hle, List.drop_of_length_le hle]
  | succ n ih =>
    intro events i hn
    rw [retainAux]
    by_cases h : i < events.length
    · rw [dif_pos h]
      simp only [List.get_eq_getElem]
      have hdrop := List.drop_eq_getElem_cons h
      by_cases hp : p events[i] = true
      · rw [if_pos hp]
        have herase : events.eraseIdx i = events.take i ++ events.drop (i + 1) :=
          List.eraseIdx_eq_take_drop_succ events i
        have hlen : (events.eraseIdx i).length - i ≤ n := by
          rw [List.length_eraseIdx, if_pos h]; omega
        have htake : (events.eraseIdx i).take i = events.take i := by
          rw [herase]
          exact List.take_left' (by simp [List.length_take]; omega)
        have hdrop2 : (events.eraseIdx i).drop i = events.drop (i + 1) := by
          rw [herase]
          exact List.drop_left' (by simp [List.length_take]; omega)
        have h1 : (events.drop i).filter (fun x => !(p x))
            = (events.drop (i + 1)).filter (fun x => !(p x)) := by
          rw [hdrop, List.filter_cons_of_neg]
          simp [hp]
        have h2 : (events.drop i).filter p
            = events[i] :: (events.drop (i + 1)).filter p := by
          rw [hdrop, List.filter_cons_of_pos]
          exact hp
        rw [ih _ _ hlen, htake, hdrop2, h1, h2]
      · rw [if_neg hp]
        have hlen : events.length - (i + 1) ≤ n := by omega
        have htake : events.take (i + 1) = events.take i ++ [events[i]] := by
          rw [List.take_succ]
          simp [List.getElem?_eq_getElem h]
        have h1 : (events.drop i).filter (fun x => !(p x))
            = events[i] :: (events.drop (i + 1)).filter (fun x => !(p x)) := by
          rw [hdrop, List.filter_cons_of_pos]
          simp [hp]
        have h2 : (events.drop i).filter p
            = (events.drop (i + 1)).filter p := by
          rw [hdrop, List.filter_cons_of_neg]
          exact hp
        rw [ih _ _ hlen, h1, h2, htake, List.append_assoc]
        rfl
    · rw [dif_neg h]
      have hle : events.length ≤ i := by omega
      simp [List.take_of_length_le hle, List.drop_of_length_le hle]

theorem retainAux_eq (p : T → Bool) (events : List T) :
    retainAux p events 0 =
      (events.filter (fun x => !(p x)), events.filter p) := by
  have h := retainAux_eq_aux p events.length events 0 (by omega)
  simpa using h

theorem retain_eq (buf : CommandBuffer T) (p : T → Bool) :
    retain buf p =
      ({ buf with events := buf.events.filter (fun x => !(p x)) },
       buf.events.filter p) := by
  rw [retain, retainAux_eq]

theorem writeAll_events (c : Nat) (hc : 0 < c) :
    ∀ (xs e : List T), e.length ≤ c →
      (writeAll { capacity := c, events := e } xs).events = takeLast c (e ++ xs) := by
  intro xs
  induction xs with
  | nil =>
    intro e he
    rw [writeAll, List.append_nil, takeLast_of_length_le _ _ he]
  | cons x xs ih =>
    intro e he
    rw [writeAll]
    by_cases h : e.length ≥ c
    · have hec : e.length = c := le_antisymm he h
      rw [write_command_full _ _ h]
      cases e with
      | nil => simp at hec; omega
      | cons eh et =>
        simp only [List.tail_cons]
        have hlen : (et ++ [x]).length ≤ c := by
          simp at hec ⊢
          omega
        rw [ih _ hlen, List.append_assoc, List.singleton_append, List.cons_append]
        rw [takeLast_cons]
        simp at hec ⊢
        omega
    · rw [write_command_spare _ _ h]
      have hlen : (e ++ [x]).length ≤ c := by
        simp
        omega
      rw [ih _ hlen, List.append_assoc, List.singleton_append]

theorem writeFlags_eq (c : Nat) (hc : 0 < c) :
    ∀ (xs e : List T), e.length ≤ c →
      writeFlags { capacity := c, events := e } xs
        = (List.range xs.length).map (fun j => decide (c ≤ e.length + j)) := by
  intro xs
  induction xs with
  | nil =>
    intro e he
    rfl
  | cons x xs ih =>
    intro e he
    rw [writeFlags, List.length_cons, List.range_succ_eq_map, List.map_cons,
      List.map_map]
    by_cases h : e.length ≥ c
    · have hec : e.length = c := le_antisymm he h
      rw [write_command_full _ _ h]
      have hlen : (e.tail ++ [x]).length ≤ c := by
        simp [List.length_tail]
        omega
      rw [ih _ hlen]
      congr 1
      · have hle : c ≤ e.length + 0 := by omega
        simp [hle]
        omega
      · apply List.map_congr_left
        intro a _
        have h1 : c ≤ (e.tail ++ [x]).length + a := by
          simp [List.length_tail]
          omega
        have h2 : c ≤ e.length + (a + 1) := by omega
        simp [Function.comp, h1, h2]
        omega
    · rw [write_command_spare _ _ h]
      have hlen : (e ++ [x]).length ≤ c := by
        simp
        omega
      rw [ih _ hlen]
      congr 1
      · have hlt : ¬ c ≤ e.length + 0 := by omega
        simp [hlt]
        omega
      · apply List.map_congr_left
        intro a _
        simp only [Function.comp_apply, List.length_append, List.length_cons,
          List.length_nil]
        rw [decide_eq_decide]
        omega

theorem step_capacity (buf : CommandBuffer T) (op : Op T) :
    (step buf op).capacity = buf.capacity := by
  cases op with
  | write x => exact write_command_capacity buf x
  | read =>
    rw [step, read_command]
    cases buf.events <;> rfl
  | clearOp => rfl
  | hasOp p => rfl
  | retainOp p => rw [step, retain_eq]

theorem step_inv (buf : CommandBuffer T) (op : Op T)
    (hc : 0 < buf.capacity) (hlen : buf.events.length ≤ buf.capacity) :
    (step buf op).events.length ≤ buf.capacity := by
  cases op with
  | write x =>
    rw [step]
    by_cases h : buf.events.length ≥ buf.capacity
    · rw [write_command_full _ _ h]
      simp [List.length_tail]
      omega
    · rw [write_command_spare _ _ h]
      simp
      omega
  | read =>
    rw [step, read_command]
    cases hbe : buf.events with
    | nil => simpa [hbe] using hlen
    | cons y ys =>
      simp only
      rw [hbe] at hlen
      simp at hlen ⊢
      omega
  | clearOp => simp [step, clear]
  | hasOp p => exact hlen
  | retainOp p =>
    rw [step, retain_eq]
    exact le_trans (List.length_filter_le _ _) hlen

theorem run_capacity (ops : List (Op T)) :
    ∀ buf : CommandBuffer T, (run buf ops).capacity = buf.capacity := by
  induction ops with
  | nil => intro buf; rfl
  | cons op ops ih =>
    intro buf
    rw [run, ih, step_capacity]

theorem run_inv (ops : List (Op T)) :
    ∀ buf : CommandBuffer T, 0 < buf.capacity →
      buf.events.length ≤ buf.capacity →
      (run buf ops).events.length ≤ buf.capacity := by
  induction ops with
  | nil => intro buf _ hlen; exact hlen
  | cons op ops ih =>
    intro buf hc hlen
    rw [run]
    have h1 := step_inv buf op hc hlen
    have h2 := step_capacity buf op
    have h3 := ih (step buf op) (by omega) (by omega)
    omega

theorem new_def (c : Nat) :
    (new c : CommandBuffer T) = { capacity := c, events := [] } := rfl

/-! ### The claims -/

/-- C1: for every queue constructed with capacity `c > 0` and every
sequence of operations (writes interleaved with reads, clears, `has` and
`retain` calls), `len()` is at most `c` after every such sequence, so the
capacity is never exceeded from the caller's perspective. -/
theorem capacity_invariant (c : Nat) (hc : 0 < c) (ops : List (Op T)) :
    len (run (new c) ops) ≤ c := by
  have h := run_inv ops (new c) hc (by simp [new])
  simpa [len] using h

theorem capacity_invariant_witness :
    0 < 2 ∧ len (run (new 2) [Op.write 7, Op.write 8, Op.write 9]) ≤ 2 :=
  ⟨by decide, capacity_invariant 2 (by decide) [Op.write 7, Op.write 8, Op.write 9]⟩

/-- C2: for capacity `c > 0` and `k ≥ 1`, after writing `c + k` items in
order into a fresh queue, repeatedly calling `read_command` until the
empty signal yields exactly the last `c` items, i.e. the input with its
first `k` items dropped, in order. -/
theorem eviction_order (c k : Nat) (hc : 0 < c) (hk : 1 ≤ k) (xs : List T)
    (hlen : xs.length = c + k) :
    drain (writeAll (new c) xs) = xs.drop k := by
  rw [drain_eq_events, new_def, writeAll_events c hc xs [] (by simp),
    List.nil_append]
  have hk' : xs.length - c = k := by omega
  rw [takeLast, hk']

theorem eviction_order_witness :
    0 < 2 ∧ 1 ≤ 1 ∧ List.length [10, 20, 30] = 2 + 1 ∧
      drain (writeAll (new 2) [10, 20, 30]) = List.drop 1 [10, 20, 30] :=
  ⟨by decide, by decide, by decide,
    eviction_order 2 1 (by decide) (by decide) [10, 20, 30] (by decide)⟩

/-- C3: on a fresh queue of capacity `c > 0`, the `i`-th `write_command`
(0-indexed `i`, so 1-indexed `i + 1`) returns `true` iff `i + 1 > c`;
moreover after any operation sequence a write returns `true` exactly when
the queue is at capacity, i.e. when it pops the oldest item to make
room. -/
theorem write_flag_iff (c : Nat) (hc : 0 < c) (xs : List T) (i : Nat)
    (hi : i < xs.length) :
    (writeFlags (new c) xs)[i]? = some (decide (c < i + 1)) ∧
    (∀ (ops : List (Op T)) (x : T),
      ((write_command (run (new c) ops) x).2 = true ↔ len (run (new c) ops) = c)) := by
  constructor
  · rw [new_def, writeFlags_eq c hc xs [] (by simp), List.getElem?_map,
      List.getElem?_range hi]
    simp only [Option.map_some', Option.some.injEq]
    rw [decide_eq_decide]
    simp only [List.length_nil]
    omega
  · intro ops x
    have hcap : (run (new c) ops).capacity = c := run_capacity ops (new c)
    have hinv : (run (new c) ops).events.length ≤ c :=
      run_inv ops (new c) hc (by simp [new])
    constructor
    · intro hflag
      by_cases h : (run (new c) ops).events.length ≥ (run (new c) ops).capacity
      · rw [len]
        omega
      · rw [write_command_spare _ _ h] at hflag
        simp at hflag
    · intro hl
      rw [len] at hl
      have h : (run (new c) ops).events.length ≥ (run (new c) ops).capacity := by
        omega
      rw [write_command_full _ _ h]

theorem write_flag_iff_witness :
    0 < 2 ∧ 2 < List.length [5, 6, 7] ∧
      ((writeFlags (new 2) [5, 6, 7])[2]? = some (decide (2 < 2 + 1)) ∧
       (∀ (ops : List (Op Nat)) (x : Nat),
         ((write_command (run (new 2) ops) x).2 = true ↔ len (run (new 2) ops) = 2))) :=
  ⟨by decide, by decide, write_flag_iff 2 (by decide) [5, 6, 7] 2 (by decide)⟩

/-- C4: for every queue constructed with capacity `c > 0`, in any
reachable state a single `write_command` leaves the length at
`min (previous_length + 1) c`. -/
theorem write_len_min (c : Nat) (hc : 0 < c) (ops : List (Op T)) (x : T) :
    len (write_command (run (new c) ops) x).1
      = min (len (run (new c) ops) + 1) c := by
  have hcap : (run (new c) ops).capacity = c := run_capacity ops (new c)
  have hinv : (run (new c) ops).events.length ≤ c :=
    run_inv ops (new c) hc (by simp [new])
  by_cases h : (run (new c) ops).events.length ≥ (run (new c) ops).capacity
  · rw [write_command_full _ _ h]
    simp [len, List.length_tail]
    omega
  · rw [write_command_spare _ _ h]
    simp [len]
    omega

theorem write_len_min_witness :
    0 < 2 ∧ len (write_command (run (new 2) [Op.write 4]) 5).1
      = min (len (run (new 2) [Op.write 4]) + 1) 2 :=
  ⟨by decide, write_len_min 2 (by decide) [Op.write 4] 5⟩

/-- C5: `retain p` is a stable partition: it returns exactly the items
satisfying `p` in arrival order, and afterwards the queue holds exactly
the items not satisfying `p` in arrival order, with the capacity
untouched — no item is skipped or duplicated. -/
theorem retain_stable_partition (buf : CommandBuffer T) (p : T → Bool) :
    (retain buf p).2 = buf.events.filter p ∧
    (retain buf p).1.events = buf.events.filter (fun x => !(p x)) ∧
    (retain buf p).1.capacity = buf.capacity := by
  rw [retain_eq]
  exact ⟨rfl, rfl, rfl⟩

/-- C6: `read_command` returns the oldest item (the front, if any) and
removes it; on an empty queue it returns the empty signal `none`, does
not fail, and leaves the queue unchanged; the length decreases by exactly
1 or stays 0, and the capacity is untouched. -/
theorem read_command_spec (buf : CommandBuffer T) :
    (read_command buf).1 = buf.events.head? ∧
    (read_command buf).2.events = buf.events.tail ∧
    (read_command buf).2.capacity = buf.capacity ∧
    len (read_command buf).2 = len buf - 1 ∧
    (len buf = 0 → read_command buf = (none, buf)) := by
  rcases buf with ⟨c, e⟩
  cases e with
  | nil => simp [read_command, len]
  | cons y ys => simp [read_command, len]

/-- C7: `has p` returns `true` iff some item currently in the queue
satisfies `p`, and since `has` takes `&self` it never mutates the queue:
any number of `has` calls leaves the state (hence `len()` and all
subsequent `read_command` results) unchanged. -/
theorem has_spec (buf : CommandBuffer T) (p : T → Bool) :
    (has buf p = true ↔ ∃ x ∈ buf.events, p x = true) ∧
    (∀ n : Nat, run buf (List.replicate n (Op.hasOp p)) = buf) := by
  constructor
  · simpa [has] using List.any_eq_true
  · intro n
    induction n with
    | zero => rfl
    | succ n ih =>
      rw [List.replicate_succ, run]
      exact ih

/-- C8: after any sequence of operations on a queue of capacity `c > 0`,
`clear()` empties the queue: `len()` becomes 0, a subsequent
`read_command` returns the empty signal, and the capacity is unchanged. -/
theorem clear_spec (c : Nat) (hc : 0 < c) (ops : List (Op T)) :
    len (clear (run (new c) ops)) = 0 ∧
    (read_command (clear (run (new c) ops))).1 = none ∧
    (clear (run (new c) ops)).capacity = c := by
  refine ⟨rfl, rfl, ?_⟩
  have h := run_capacity ops (new (T := T) c)
  simpa [clear, new] using h

theorem clear_spec_witness :
    0 < 1 ∧
      (len (clear (run (new 1) [Op.write 3, Op.write 4])) = 0 ∧
       (read_command (clear (run (new 1) [Op.write 3, Op.write 4]))).1 = none ∧
       (clear (run (new 1) [Op.write 3, Op.write 4])).capacity = 1) :=
  ⟨by decide, clear_spec 1 (by decide) [Op.write 3, Op.write 4]⟩

/-- C9: on a queue constructed with capacity 0, the very first
`write_command` returns `true` although the queue was empty (the
`pop_front` found nothing to discard), and the item is still appended, so
`len()` becomes 1, exceeding the constructed capacity 0. -/
theorem write_zero_capacity (x : T) :
    len (new (T := T) 0) = 0 ∧
    (write_command (new 0) x).2 = true ∧
    (write_command (new 0) x).1.events = [x] ∧
    len (write_command (new 0) x).1 = 1 ∧
    (new (T := T) 0).capacity < len (write_command (new 0) x).1 := by
  refine ⟨rfl, ?_, ?_, ?_, ?_⟩ <;>
    rw [write_command_full _ _ (by simp [new])] <;>
    simp [new, len]

/-- C10: `retain` with an all-matching predicate behaves as a full drain
(returns everything, in arrival order, leaving the cleared queue) and
with a never-matching predicate returns nothing and leaves the queue
untouched. -/
theorem retain_all_or_none (buf : CommandBuffer T) :
    retain buf (fun _ => true) = (clear buf, buf.events) ∧
    (retain buf (fun _ => true)).2 = drain buf ∧
    retain buf (fun _ => false) = (buf, []) := by
  refine ⟨?_, ?_, ?_⟩
  · rw [retain_eq]
    simp [clear]
  · rw [retain_eq, drain_eq_events]
    simp
  · rw [retain_eq]
    cases buf
    simp

end CmdBuffer
